/-
Verification of the PolyRatings scraper (validators.py, scraper.py, utils.py)
against its natural-language specification.

The Python sources are shallowly embedded below.  Strings are modelled as
Lean `String`/`List Char`; Python 64-bit floats are modelled as exact
rationals `ℚ` (every numeric value exercised by the claims has at most two
decimal digits, where doubles and rationals agree); fallible functions
return `Option`; file state is passed explicitly.  Character classes follow
Python's ASCII behaviour; the site data contains only ASCII.
-/
import Mathlib

set_option linter.unusedVariables false

/-- Python whitespace characters in the ASCII range: the characters stripped
by `str.strip()` and matched by the regex class `\s` on ASCII input. -/
def pyWs (c : Char) : Bool :=
  c = ' ' || c = '\t' || c = '\n' || c = '\r' || c = '\x0b' || c = '\x0c'

/-- ASCII letters, the regex range `[A-Za-z]`. -/
def isAsciiLetter (c : Char) : Bool :=
  ('A' ≤ c && c ≤ 'Z') || ('a' ≤ c && c ≤ 'z')

/-- Characters kept by the cleaning regex in `clean_professor_name`
(`re.sub(r"[^A-Za-z\s,\.\'-]", "", name)` removes everything else):
letters, whitespace, comma, period, apostrophe, hyphen. -/
def isNameChar (c : Char) : Bool :=
  isAsciiLetter c || pyWs c || c = ',' || c = '.' || c = '\'' || c = '-'

/-- Drop leading Python whitespace. -/
def dropWs (l : List Char) : List Char := l.dropWhile pyWs

/-- Drop trailing Python whitespace. -/
def dropTrailWs (l : List Char) : List Char := (dropWs l.reverse).reverse

/-- Python `str.strip()`: remove leading and trailing whitespace. -/
def stripWs (l : List Char) : List Char := dropWs (dropTrailWs l)

/-- The effect of `re.sub(r"\s+", " ", s)`: every maximal run of whitespace
characters is replaced by a single space. -/
def collapseRuns : List Char → List Char
  | [] => []
  | [c] => if pyWs c then [' '] else [c]
  | c1 :: c2 :: cs =>
    if pyWs c1 && pyWs c2 then collapseRuns (c2 :: cs)
    else (if pyWs c1 then ' ' else c1) :: collapseRuns (c2 :: cs)

/-- `clean_professor_name` from validators.py: on the empty (falsy) string
return the empty string; otherwise apply `re.sub(r"\s+", " ", name.strip())`
and then `re.sub(r"[^A-Za-z\s,\.\'-]", "", name)`. -/
def clean_professor_name (s : String) : String :=
  if s = "" then ""
  else String.mk ((collapseRuns (stripWs s.data)).filter isNameChar)

/-- Modelled from the spec: "collapse internal whitespace runs to a single
space, trim ends, strip any character outside the set {letters, space,
comma, period, apostrophe, hyphen}".  The steps are composed in the spec's
order (collapse, then trim, then strip), to be compared with the source's
order (trim, then collapse, then strip). -/
def cleanNameSpec (s : String) : String :=
  String.mk ((stripWs (collapseRuns s.data)).filter isNameChar)

/-- Whether the last character of a list is Python whitespace. -/
def lastWs : List Char → Bool
  | [] => false
  | [c] => pyWs c
  | _ :: c :: cs => lastWs (c :: cs)

/-- Whether the first character of a list is Python whitespace. -/
def headWs : List Char → Bool
  | [] => false
  | c :: _ => pyWs c

/-- One digit group of a Python numeric literal: digits with single
underscores allowed between digits (`1_000`).  Accumulates onto `acc` with
`len` digits read so far; returns value, digit count, unconsumed rest. -/
def digitGroupGo : Nat → Nat → List Char → Nat × Nat × List Char
  | acc, len, '_' :: c :: cs =>
    if c.isDigit then digitGroupGo (acc * 10 + (c.toNat - Char.toNat '0')) (len + 1) cs
    else (acc, len, '_' :: c :: cs)
  | acc, len, c :: cs =>
    if c.isDigit then digitGroupGo (acc * 10 + (c.toNat - Char.toNat '0')) (len + 1) cs
    else (acc, len, c :: cs)
  | acc, len, [] => (acc, len, [])

/-- A digit group must start with a digit (no leading underscore). -/
def digitGroup : List Char → Option (Nat × Nat × List Char)
  | c :: cs =>
    if c.isDigit then some (digitGroupGo (c.toNat - Char.toNat '0') 1 cs) else none
  | [] => none

/-- The mantissa of a Python float literal: `D [. [D]]` or `. D`. -/
def parseMantissa : List Char → Option (ℚ × List Char)
  | '.' :: cs =>
    match digitGroup cs with
    | some (v, len, rest) => some ((v : ℚ) / (10 : ℚ) ^ len, rest)
    | none => none
  | cs =>
    match digitGroup cs with
    | some (v, len, rest) =>
      match rest with
      | '.' :: rest2 =>
        match digitGroup rest2 with
        | some (f, flen, rest3) => some ((v : ℚ) + (f : ℚ) / (10 : ℚ) ^ flen, rest3)
        | none => some ((v : ℚ), rest2)
      | _ => some ((v : ℚ), rest)
    | none => none

/-- The exponent digits (with optional sign), which must consume the whole
remaining input. -/
def parseExpDigits : List Char → Option ℤ
  | '+' :: cs =>
    (match digitGroup cs with
     | some (v, _, []) => some ((v : ℤ))
     | _ => none)
  | '-' :: cs =>
    (match digitGroup cs with
     | some (v, _, []) => some (-(v : ℤ))
     | _ => none)
  | cs =>
    (match digitGroup cs with
     | some (v, _, []) => some ((v : ℤ))
     | _ => none)

/-- Apply an optional `e`/`E` exponent part to a mantissa; anything else
left over makes the literal invalid. -/
def applyExp (m : ℚ) : List Char → Option ℚ
  | [] => some m
  | c :: cs =>
    if c = 'e' || c = 'E' then
      match parseExpDigits cs with
      | some e => some (m * (10 : ℚ) ^ e)
      | none => none
    else none

/-- Python `float(s)` on a string: strip surrounding whitespace, optional
sign, then a decimal literal.  Returns the exact rational value.
(`inf`/`nan` also parse in Python but are then always rejected by
`validate_rating`'s range check — comparisons with nan are false — so they
are modelled as parse failures, which yields the same result.) -/
def pyFloatParse (s : String) : Option ℚ :=
  let cs := stripWs s.data
  let sgncs : ℚ × List Char :=
    match cs with
    | '+' :: r => (1, r)
    | '-' :: r => (-1, r)
    | r => (1, r)
  match parseMantissa sgncs.2 with
  | some (m, rest) =>
    match applyExp m rest with
    | some q => some (sgncs.1 * q)
    | none => none
  | none => none

/-- Python `round(x, 2)` modelled on rationals: round `100 x` to an integer
and divide by 100.  (Python rounds ties of the underlying double to even;
no value evaluated in this development is a tie, so the tie convention is
immaterial.) -/
def round2 (q : ℚ) : ℚ := ((round (q * 100) : ℤ) : ℚ) / 100

/-- The `rating: Any` argument of `validate_rating`: the pipeline passes
the rating text (a `str`), `None` (card without a rating element), or a
float (when an already-validated record is re-validated). -/
inductive RatingInput where
  | str (s : String)
  | num (q : ℚ)
  | null
deriving DecidableEq, Repr

/-- `validate_rating` from validators.py: `float(rating)` (`ValueError` /
`TypeError` gives `None`), reject unless the value lies in
`[MIN_RATING, MAX_RATING] = [0, 4]`, then `round(rating_float, 2)`. -/
def validate_rating : RatingInput → Option ℚ
  | .str s =>
    (match pyFloatParse s with
     | some q => if 0 ≤ q ∧ q ≤ 4 then some (round2 q) else none
     | none => none)
  | .num q => if 0 ≤ q ∧ q ≤ 4 then some (round2 q) else none
  | .null => none

/-- Greedy run of regex `\d` digits (no underscores). -/
def regexDigitsGo : Nat → Nat → List Char → Nat × Nat × List Char
  | acc, len, c :: cs =>
    if c.isDigit then regexDigitsGo (acc * 10 + (c.toNat - Char.toNat '0')) (len + 1) cs
    else (acc, len, c :: cs)
  | acc, len, [] => (acc, len, [])

/-- `re.search(r"(\d+\.?\d*)", t)`: the match starts at the first digit;
`\d+` greedily takes that digit run, `\.?` an optional dot, `\d*` the
following (possibly empty) digit run. -/
def firstNumberSubstring : List Char → Option ℚ
  | [] => none
  | c :: cs =>
    if c.isDigit then
      let g := regexDigitsGo (c.toNat - Char.toNat '0') 1 cs
      match g.2.2 with
      | '.' :: rest2 =>
        let f := regexDigitsGo 0 0 rest2
        some ((g.1 : ℚ) + (f.1 : ℚ) / (10 : ℚ) ^ f.2.1)
      | _ => some ((g.1 : ℚ))
    else firstNumberSubstring cs

/-- `extract_rating_from_text` from utils.py — NOT called by the pipeline:
regex-extract the first number substring of the stripped text, convert,
range-check against `[0, 4]` and round to 2 decimals, else `None`. -/
def extract_rating_from_text (rating_text : String) : Option ℚ :=
  if rating_text = "" then none
  else
    match firstNumberSubstring (stripWs rating_text.data) with
    | some q => if 0 ≤ q ∧ q ≤ 4 then some (round2 q) else none
    | none => none

/-- The regex class `[a-f0-9-]`: lowercase hex digits and the hyphen. -/
def isTokenChar (c : Char) : Bool :=
  ('a' ≤ c && c ≤ 'f') || ('0' ≤ c && c ≤ '9') || c = '-'

/-- The literal part of the professor-link regex. -/
def linkBase : List Char := ("https://polyratings.dev/professor/").data

/-- Consume an expected literal prefix; return the unconsumed remainder. -/
def stripBase : List Char → List Char → Option (List Char)
  | [], r => some r
  | p :: ps, c :: cs => if c = p then stripBase ps cs else none
  | _ :: _, [] => none

/-- After at least one token character was read: the continuation of
`[a-f0-9-]+$` under Python semantics, where `$` matches at the end of the
string or just before a newline that is the string's last character. -/
def tokenTail : List Char → Bool
  | [] => true
  | ['\n'] => true
  | c :: cs => isTokenChar c && tokenTail cs

/-- `re.match(r"^https://polyratings\.dev/professor/[a-f0-9-]+$", link)`
under Python semantics. -/
def pyLinkRegexMatch (s : String) : Bool :=
  match stripBase linkBase s.data with
  | some (c :: cs) => isTokenChar c && tokenTail cs
  | some [] => false
  | none => false

/-- `validate_professor_link` from validators.py: `None` on the falsy
(empty) string, the link itself when the regex matches, else `None`. -/
def validate_professor_link (link : String) : Option String :=
  if link = "" then none
  else if pyLinkRegexMatch link then some link else none

/-- Modelled from the spec: the link "exactly matches
`<base-origin>/professor/<token>` where `<token>` consists only of
lowercase hex digits and hyphens", `<token>` non-empty. -/
def linkShapeSpec (s : String) : Bool :=
  match stripBase linkBase s.data with
  | some r => !r.isEmpty && r.all isTokenChar
  | none => false

/-- A professor entry, the dict `{"name": ..., "rating": ..., "link": ...}`
built by `create_professor_entry`. -/
structure Entry where
  name : String
  rating : ℚ
  link : String
deriving DecidableEq, Repr

/-- The `pattern` part of the `name` property schema,
`^[A-Za-z\s,\.'-]+$` applied by jsonschema via `re.search`.  `\n` is in the
class `\s` itself, so the Python `$`-before-final-newline subtlety adds no
further strings here. -/
def namePatternOk (s : String) : Bool :=
  !s.isEmpty && s.data.all isNameChar

/-- The `name` property of PROFESSOR_SCHEMA: `minLength` 2, `maxLength`
100, and the character-class pattern. -/
def nameOk (s : String) : Bool :=
  2 ≤ s.length && s.length ≤ 100 && namePatternOk s

/-- The `rating` property of PROFESSOR_SCHEMA: a number in `[0, 4]`. -/
def ratingOk (q : ℚ) : Bool :=
  decide (0 ≤ q) && decide (q ≤ 4)

/-- The `link` property of PROFESSOR_SCHEMA: the same regex as
`validate_professor_link` (the `"format": "uri"` annotation is not
enforced by jsonschema without a format checker). -/
def linkOk (s : String) : Bool := pyLinkRegexMatch s

/-- `validate_professor_data` on an entry dict: `required` and
`additionalProperties` hold by construction of the three-field dict; the
three property schemas remain. -/
def validate_professor_data (e : Entry) : Bool :=
  nameOk e.name && ratingOk e.rating && linkOk e.link

/-- `validate_professors_list` (PROFESSORS_LIST_SCHEMA): an array of valid
professor entries with `minItems: 1`. -/
def validate_professors_list (l : List Entry) : Bool :=
  !l.isEmpty && l.all validate_professor_data

/-- `clean_professor_name` applied to a possibly-missing name: `None` is
falsy, so it takes the early `return ""`. -/
def cleanNameOpt : Option String → String
  | none => ""
  | some s => clean_professor_name s

/-- `create_professor_entry` from validators.py. -/
def create_professor_entry (name : Option String) (rating : RatingInput) (link : String) : Option Entry :=
  let clean_name := cleanNameOpt name
  if clean_name = "" then none
  else
    match validate_rating rating with
    | none => none
    | some valid_rating =>
      match validate_professor_link link with
      | none => none
      | some valid_link =>
        let e : Entry := ⟨clean_name, valid_rating, valid_link⟩
        if validate_professor_data e then some e else none

/-- Hex digit for `\u00XX` escapes. -/
def hexDigit (n : Nat) : Char :=
  if n < 10 then Char.ofNat (Char.toNat '0' + n) else Char.ofNat (Char.toNat 'a' + (n - 10))

/-- JSON string escaping as `json.dump` with `ensure_ascii=False` performs
it: quote, backslash and control characters are escaped, everything else
is emitted verbatim. -/
def jsonEscapeChar (c : Char) : List Char :=
  if c = '\"' then ['\\', '\"']
  else if c = '\\' then ['\\', '\\']
  else if c = '\n' then ['\\', 'n']
  else if c = '\t' then ['\\', 't']
  else if c = '\r' then ['\\', 'r']
  else if c = '\x08' then ['\\', 'b']
  else if c = '\x0c' then ['\\', 'f']
  else if c.toNat < 32 then
    ['\\', 'u', '0', '0', hexDigit (c.toNat / 16), hexDigit (c.toNat % 16)]
  else [c]

/-- A JSON string literal. -/
def jsonQuote (s : String) : String :=
  String.mk ('\"' :: (s.data.map jsonEscapeChar).flatten ++ ['\"'])

/-- Python `repr` of a non-negative double holding a value with at most two
decimal digits — every rating the validator emits (`round(x, 2)`); `repr`
prints the shortest decimal that round-trips, i.e. the one- or two-digit
decimal form, and `x.0` for integral values.  Rationals outside that family
have no exactly-equal double and never reach this function from the
pipeline; they are rendered as `num/den` only for totality. -/
def ratRepr (q : ℚ) : String :=
  if q.den = 1 then toString q.num ++ (".0")
  else if 0 ≤ q && (q * 100).den = 1 then
    let h : ℤ := (q * 100).num
    let i : ℤ := h / 100
    let f : ℤ := h % 100
    if f % 10 = 0 then toString i ++ (".") ++ toString (f / 10)
    else if f < 10 then toString i ++ (".0") ++ toString f
    else toString i ++ (".") ++ toString f
  else toString q.num ++ ("/") ++ toString q.den

/-- One professor object as `json.dump(..., indent=2)` lays it out. -/
def entryBlock (e : Entry) : String :=
  ("  \x7b\n    \"name\": ") ++ jsonQuote e.name ++
  (",\n    \"rating\": ") ++ ratRepr e.rating ++
  (",\n    \"link\": ") ++ jsonQuote e.link ++ ("\n  \x7d")

/-- `json.dump(professors, f, indent=2, ensure_ascii=False)`: the full
artifact text. -/
def dumps (l : List Entry) : String :=
  match l with
  | [] => ("[]")
  | _ => ("[\n") ++ String.intercalate (",\n") (l.map entryBlock) ++ ("\n]")

/-- Outcome of the file-system interaction in `save_professors_json`:
`open`/`json.dump` succeed, or `open(output_path, "w")` itself raises (the
file is untouched), or an error occurs during writing — `open(..., "w")`
has already truncated the file and `json.dump` writes incrementally, so a
prefix (of some length `n`) of the serialized text is what remains. -/
inductive WriteOutcome where
  | ok
  | openFail
  | failAfter (n : Nat)
deriving DecidableEq, Repr

/-- `save_professors_json` from validators.py, the artifact contents passed
explicitly (`none` = no file).  A validation failure returns `False`
before any file is opened; every exception is caught and returns `False`. -/
def save_professors_json (professors : List Entry) (artifact : Option String) (w : WriteOutcome) : Bool × Option String :=
  if !validate_professors_list professors then (false, artifact)
  else
    match w with
    | .ok => (true, some (dumps professors))
    | .openFail => (false, artifact)
    | .failAfter n => (false, some ((dumps professors).take n))

/-- JSON values, for the artifact modelled at the parsed-value level:
Python's `json.load` of a `json.dump` output returns an equal value
(float `repr` round-trips exactly), so save-then-load is value-preserving
and the artifact can be identified with its parsed JSON value. -/
inductive Json where
  | null
  | bool (b : Bool)
  | num (q : ℚ)
  | str (s : String)
  | arr (items : List Json)
  | obj (fields : List (String × Json))

/-- The JSON value `json.dump` serializes for one entry. -/
def encodeEntry (e : Entry) : Json :=
  .obj [(("name"), .str e.name), (("rating"), .num e.rating), (("link"), .str e.link)]

/-- The JSON value of the whole artifact. -/
def encodeEntries (l : List Entry) : Json :=
  .arr (l.map encodeEntry)

/-- PROFESSOR_SCHEMA applied by jsonschema to an arbitrary parsed JSON
value: an object whose `name`/`rating`/`link` members satisfy the property
schemas (`required`) and which has no other member
(`additionalProperties: false`).  Objects coming from `json.load` have
distinct keys, so first-match lookup is the dict lookup. -/
def validProfJson : Json → Bool
  | .obj fields =>
    (match fields.lookup ("name") with
     | some (.str s) => nameOk s
     | _ => false) &&
    (match fields.lookup ("rating") with
     | some (.num q) => ratingOk q
     | _ => false) &&
    (match fields.lookup ("link") with
     | some (.str s) => linkOk s
     | _ => false) &&
    fields.all (fun kv => kv.1 = ("name") || kv.1 = ("rating") || kv.1 = ("link"))
  | _ => false

/-- PROFESSORS_LIST_SCHEMA on an arbitrary parsed JSON value. -/
def validateListJson : Json → Bool
  | .arr items => !items.isEmpty && items.all validProfJson
  | _ => false

/-- Read one professor dict back into an entry. -/
def decodeEntry : Json → Option Entry
  | .obj fields =>
    (match fields.lookup ("name"), fields.lookup ("rating"), fields.lookup ("link") with
     | some (.str n), some (.num q), some (.str l) => some ⟨n, q, l⟩
     | _, _, _ => none)
  | _ => none

/-- Read the artifact value back into entries. -/
def decodeEntries : Json → Option (List Entry)
  | .arr items => items.mapM decodeEntry
  | _ => none

/-- `save_professors_json` at the JSON-value level (the success path of the
store; failure modes are covered by `save_professors_json` above). -/
def saveValue (professors : List Entry) (artifact : Option Json) : Bool × Option Json :=
  if validate_professors_list professors then (true, some (encodeEntries professors))
  else (false, artifact)

/-- `load_professors_json` from validators.py at the JSON-value level: a
missing or unparsable file yields `None` (the caught exception); otherwise
the parsed value is validated against PROFESSORS_LIST_SCHEMA and returned —
here decoded into entries, a bijective reading of schema-valid values. -/
def load_professors_json (artifact : Option Json) : Option (List Entry) :=
  match artifact with
  | none => none
  | some j => if validateListJson j then decodeEntries j else none

/-- One `(name, rating, link)` tuple produced by
`extract_professors_from_dom`: name and rating text may be missing
(`None`); the link is always a string (`BASE_URL + href`). -/
structure RawCard where
  name : Option String
  ratingText : Option String
  link : String
deriving DecidableEq, Repr

/-- How the tuple's rating field enters `create_professor_entry`. -/
def ratingInputOf : Option String → RatingInput
  | none => .null
  | some s => .str s

/-- The loop of `deduplicate_professors` from scraper.py: keep a tuple iff
its link is not in the `seen` set yet, adding kept links to `seen`. -/
def dedupGo (seen : List String) : List RawCard → List RawCard
  | [] => []
  | c :: cs =>
    if c.link ∈ seen then dedupGo seen cs
    else c :: dedupGo (c.link :: seen) cs

/-- `deduplicate_professors` from scraper.py. -/
def deduplicate_professors (professors : List RawCard) : List RawCard :=
  dedupGo [] professors

/-- The body of `main` between collection and saving: deduplicate by link,
then validate each tuple, dropping rejected ones.  The resulting list is
exactly the sequence handed to `save_professors_json`. -/
def pipelineEntries (raw : List RawCard) : List Entry :=
  (deduplicate_professors raw).filterMap
    (fun c => create_professor_entry c.name (ratingInputOf c.ratingText) c.link)

/-- Loop state of `fine_grained_scroll_and_collect`.  The Python `set`
`all_professors` is modelled as a duplicate-free list in insertion order
(`list(set)` enumerates in an unspecified order; every claim about the
result is order-insensitive). -/
structure CollectState where
  acc : List RawCard
  lastCount : Nat
  noNew : Nat
  pos : Nat
  height : Nat
deriving DecidableEq, Repr

/-- `all_professors.add(prof)` on the set-as-list. -/
def insertCard (l : List RawCard) (c : RawCard) : List RawCard :=
  if c ∈ l then l else l ++ [c]

/-- `for prof in current_professors: all_professors.add(prof)`. -/
def insertAll (l : List RawCard) (cs : List RawCard) : List RawCard :=
  cs.foldl insertCard l

/-- The `while scroll_position < total_height` loop of
`fine_grained_scroll_and_collect`.  `extract i` is the tuple list the
Extractor returns at the i-th iteration, `height i` the re-read
`document.body.scrollHeight` at its end; `fuel` bounds the iteration count
(the Python loop need not terminate if the page keeps growing). -/
def collectLoop (extract : Nat → List RawCard) (height : Nat → Nat) (inc maxNoNew : Nat) : Nat → Nat → CollectState → CollectState
  | 0, _, st => st
  | fuel + 1, i, st =>
    if st.pos < st.height then
      let acc2 := insertAll st.acc (extract i)
      let p : Nat × Nat :=
        if acc2.length = st.lastCount then (st.noNew + 1, st.lastCount)
        else (0, acc2.length)
      if maxNoNew ≤ p.1 then { st with acc := acc2, lastCount := p.2, noNew := p.1 }
      else
        collectLoop extract height inc maxNoNew fuel (i + 1)
          { acc := acc2, lastCount := p.2, noNew := p.1, pos := st.pos + inc, height := height i }
    else st

/-- The loop iterations of `collectLoop` that actually ran an extraction. -/
def collectSteps (extract : Nat → List RawCard) (height : Nat → Nat) (inc maxNoNew : Nat) : Nat → Nat → CollectState → List Nat
  | 0, _, _ => []
  | fuel + 1, i, st =>
    if st.pos < st.height then
      let acc2 := insertAll st.acc (extract i)
      let p : Nat × Nat :=
        if acc2.length = st.lastCount then (st.noNew + 1, st.lastCount)
        else (0, acc2.length)
      if maxNoNew ≤ p.1 then [i]
      else
        i :: collectSteps extract height inc maxNoNew fuel (i + 1)
          { acc := acc2, lastCount := p.2, noNew := p.1, pos := st.pos + inc, height := height i }
    else []

/-- `fine_grained_scroll_and_collect` from scraper.py: run the loop from a
zero cursor with initial height `h0`, then perform the final
bottom-of-page extraction (`finalExtract`) and merge it in; the returned
list is `list(all_professors)`. -/
def fine_grained_scroll_and_collect (extract : Nat → List RawCard) (height : Nat → Nat) (finalExtract : List RawCard) (inc maxNoNew h0 fuel : Nat) : List RawCard :=
  let st := collectLoop extract height inc maxNoNew fuel 0 ⟨[], 0, 0, 0, h0⟩
  insertAll st.acc finalExtract

/-- The iterations a full `fine_grained_scroll_and_collect` run performs. -/
def collectAllSteps (extract : Nat → List RawCard) (height : Nat → Nat) (inc maxNoNew h0 fuel : Nat) : List Nat :=
  collectSteps extract height inc maxNoNew fuel 0 ⟨[], 0, 0, 0, h0⟩

theorem lastWs_cons_cons (a b : Char) (l : List Char) :
    lastWs (a :: b :: l) = lastWs (b :: l) := rfl

theorem collapseRuns_cons_cons (a b : Char) (l : List Char) :
    collapseRuns (a :: b :: l) =
      if pyWs a && pyWs b then collapseRuns (b :: l)
      else (if pyWs a then ' ' else a) :: collapseRuns (b :: l) := rfl

theorem collapseRuns_cons_not_ws (c : Char) (tl : List Char) (hc : pyWs c = false) :
    collapseRuns (c :: tl) = c :: collapseRuns tl := by
  cases tl <;> simp [collapseRuns, hc]

theorem lastWs_append_singleton (m : List Char) (c : Char) :
    lastWs (m ++ [c]) = pyWs c := by
  induction m with
  | nil => rfl
  | cons a tl ih =>
    cases tl with
    | nil => rfl
    | cons b m2 => simpa [lastWs] using ih

theorem lastWs_reverse (l : List Char) : lastWs l.reverse = headWs l := by
  cases l with
  | nil => rfl
  | cons c m => rw [List.reverse_cons, lastWs_append_singleton]; rfl

theorem collapseRuns_append_singleton (m : List Char) (c : Char) :
    collapseRuns (m ++ [c]) =
      if lastWs m && pyWs c then collapseRuns m
      else collapseRuns m ++ [if pyWs c then ' ' else c] := by
  induction m with
  | nil => cases hc : pyWs c <;> simp [collapseRuns, lastWs, hc]
  | cons a tl ih =>
    cases tl with
    | nil =>
      cases ha : pyWs a <;> cases hc : pyWs c <;>
        simp [collapseRuns, lastWs, ha, hc]
    | cons b tl2 =>
      have h1 : (a :: b :: tl2) ++ [c] = a :: b :: (tl2 ++ [c]) := rfl
      have h2 : b :: (tl2 ++ [c]) = (b :: tl2) ++ [c] := rfl
      rw [h1, collapseRuns_cons_cons, h2, ih, collapseRuns_cons_cons a b tl2,
        lastWs_cons_cons]
      cases hab : (pyWs a && pyWs b) <;>
        cases hlc : (lastWs (b :: tl2) && pyWs c) <;> simp [hab, hlc]

theorem pyWs_space : pyWs ' ' = true := by decide

theorem collapseRuns_reverse (l : List Char) :
    collapseRuns l.reverse = (collapseRuns l).reverse := by
  induction l with
  | nil => rfl
  | cons c tl ih =>
    rw [List.reverse_cons, collapseRuns_append_singleton, lastWs_reverse]
    cases tl with
    | nil => cases hc : pyWs c <;> simp [collapseRuns, headWs, hc]
    | cons b tl2 =>
      rw [collapseRuns_cons_cons, ih]
      cases hc : pyWs c <;> cases hb : pyWs b <;>
        simp [headWs, hb, hc, List.reverse_cons]

theorem collapseRuns_dropWs (l : List Char) :
    collapseRuns (dropWs l) = dropWs (collapseRuns l) := by
  induction l with
  | nil => rfl
  | cons c tl ih =>
    cases hc : pyWs c
    · rw [collapseRuns_cons_not_ws c tl hc]
      simp [dropWs, List.dropWhile_cons, hc, collapseRuns_cons_not_ws c tl hc]
    · cases tl with
      | nil =>
        have h1 : collapseRuns [c] = [' '] := by simp [collapseRuns, hc]
        have h2 : dropWs [c] = [] := by simp [dropWs, List.dropWhile_cons, hc]
        rw [h1, h2]
        simp [dropWs, List.dropWhile_cons, pyWs_space, collapseRuns]
      | cons b tl2 =>
        cases hb : pyWs b
        · have hcol : collapseRuns (c :: b :: tl2) = ' ' :: collapseRuns (b :: tl2) := by
            simp [collapseRuns_cons_cons, hb, hc]
          have hbt : collapseRuns (b :: tl2) = b :: collapseRuns tl2 :=
            collapseRuns_cons_not_ws b tl2 hb
          rw [hcol]
          simp [dropWs, List.dropWhile_cons, hb, hc, hbt, pyWs_space]
        · have hcol : collapseRuns (c :: b :: tl2) = collapseRuns (b :: tl2) := by
            simp [collapseRuns_cons_cons, hb, hc]
          rw [hcol]
          simpa [dropWs, List.dropWhile_cons, hc] using ih

theorem collapseRuns_dropTrailWs (l : List Char) :
    collapseRuns (dropTrailWs l) = dropTrailWs (collapseRuns l) := by
  unfold dropTrailWs
  rw [← collapseRuns_reverse l, ← collapseRuns_dropWs, ← collapseRuns_reverse]

theorem collapseRuns_stripWs (l : List Char) :
    collapseRuns (stripWs l) = stripWs (collapseRuns l) := by
  unfold stripWs
  rw [collapseRuns_dropWs, collapseRuns_dropTrailWs]

theorem clean_eq_cleanNameSpec (s : String) :
    clean_professor_name s = cleanNameSpec s := by
  unfold clean_professor_name cleanNameSpec
  by_cases hs : s = ""
  · subst hs; rfl
  · simp [hs, collapseRuns_stripWs]

theorem round_mono2 {x y : ℚ} (h : x ≤ y) : round x ≤ round y := by
  rw [round_eq, round_eq]
  exact Int.floor_le_floor (by linarith)

theorem round2_idem (q : ℚ) : round2 (round2 q) = round2 q := by
  unfold round2
  rw [div_mul_cancel₀ _ (by norm_num : (100 : ℚ) ≠ 0), round_intCast]

theorem round2_nonneg {q : ℚ} (h : 0 ≤ q) : 0 ≤ round2 q := by
  unfold round2
  have h1 : (0 : ℤ) ≤ round (q * 100) := by
    have h2 := round_mono2 (by linarith : (0 : ℚ) ≤ q * 100)
    simpa using h2
  have h3 : (0 : ℚ) ≤ ((round (q * 100) : ℤ) : ℚ) := by exact_mod_cast h1
  exact div_nonneg h3 (by norm_num)

theorem round2_le_four {q : ℚ} (h : q ≤ 4) : round2 q ≤ 4 := by
  unfold round2
  have h1 : round (q * 100) ≤ 400 := by
    have h2 : round (q * 100) ≤ round (((400 : ℤ) : ℚ)) := round_mono2 (by push_cast; linarith)
    rwa [round_intCast] at h2
  rw [div_le_iff₀ (by norm_num : (0 : ℚ) < 100)]
  have h3 : ((round (q * 100) : ℤ) : ℚ) ≤ ((400 : ℤ) : ℚ) := by exact_mod_cast h1
  calc ((round (q * 100) : ℤ) : ℚ) ≤ ((400 : ℤ) : ℚ) := h3
    _ = 4 * 100 := by norm_num

theorem validate_rating_str_iff (s : String) (q : ℚ) :
    validate_rating (.str s) = some q ↔
      ∃ x, pyFloatParse s = some x ∧ 0 ≤ x ∧ x ≤ 4 ∧ q = round2 x := by
  simp only [validate_rating]
  cases h : pyFloatParse s with
  | none => simp
  | some x =>
    by_cases hx : 0 ≤ x ∧ x ≤ 4
    · simp only [if_pos hx, Option.some_inj]
      constructor
      · intro he; exact ⟨x, rfl, hx.1, hx.2, he.symm⟩
      · rintro ⟨y, hy, h0, h4, rfl⟩
        cases hy; rfl
    · simp only [if_neg hx]
      constructor
      · intro he; cases he
      · rintro ⟨y, hy, h0, h4, rfl⟩
        cases hy; exact absurd ⟨h0, h4⟩ hx

theorem validate_rating_some {r : RatingInput} {q : ℚ} (h : validate_rating r = some q) :
    0 ≤ q ∧ q ≤ 4 ∧ round2 q = q := by
  cases r with
  | str s =>
    rw [validate_rating_str_iff] at h
    obtain ⟨x, hx, h0, h4, rfl⟩ := h
    exact ⟨round2_nonneg h0, round2_le_four h4, round2_idem x⟩
  | num x =>
    simp only [validate_rating] at h
    by_cases hx : 0 ≤ x ∧ x ≤ 4
    · rw [if_pos hx, Option.some_inj] at h
      subst h
      exact ⟨round2_nonneg hx.1, round2_le_four hx.2, round2_idem x⟩
    · rw [if_neg hx] at h; cases h
  | null => cases h

theorem validate_rating_num_fixed {q : ℚ} (h0 : 0 ≤ q) (h4 : q ≤ 4) (hr : round2 q = q) :
    validate_rating (.num q) = some q := by
  simp [validate_rating, h0, h4, hr]

theorem stripBase_eq_some (p : List Char) :
    ∀ l r, stripBase p l = some r ↔ l = p ++ r := by
  induction p with
  | nil =>
    intro l r
    simp [stripBase, eq_comm]
  | cons d ps ih =>
    intro l r
    cases l with
    | nil => simp [stripBase]
    | cons c cs =>
      by_cases hc : c = d
      · subst hc
        simp [stripBase, ih]
      · simp [stripBase, hc, Ne.symm hc]

theorem tokenTail_iff (l : List Char) :
    tokenTail l = true ↔
      l.all isTokenChar = true ∨ ∃ t, l = t ++ ['\n'] ∧ t.all isTokenChar = true := by
  induction l with
  | nil => simp [tokenTail]
  | cons c cs ih =>
    by_cases hc : c = '\n' ∧ cs = []
    · obtain ⟨rfl, rfl⟩ := hc
      simp only [tokenTail]
      constructor
      · intro _
        right
        exact ⟨[], rfl, rfl⟩
      · intro _; trivial
    · have hred : tokenTail (c :: cs) = (isTokenChar c && tokenTail cs) := by
        cases cs with
        | nil =>
          have hcn : ¬ c = '\n' := fun h => hc ⟨h, rfl⟩
          simp [tokenTail, hcn]
        | cons b cs2 => simp [tokenTail]
      rw [hred, Bool.and_eq_true, ih]
      constructor
      · rintro ⟨hct, hcs | ⟨t, rfl, ht⟩⟩
        · left; simp [List.all_cons, hct, hcs]
        · right
          exact ⟨c :: t, rfl, by simp [List.all_cons, hct, ht]⟩
      · rintro (hall | ⟨t, heq, ht⟩)
        · rw [List.all_cons, Bool.and_eq_true] at hall
          exact ⟨hall.1, Or.inl hall.2⟩
        · cases t with
          | nil =>
            simp at heq
            exact absurd ⟨heq.1, heq.2⟩ hc
          | cons d t2 =>
            rw [List.cons_append] at heq
            injection heq with h1 h2
            subst h1
            rw [List.all_cons, Bool.and_eq_true] at ht
            exact ⟨ht.1, Or.inr ⟨t2, h2, ht.2⟩⟩

theorem pyLinkRegexMatch_iff (s : String) :
    pyLinkRegexMatch s = true ↔
      ∃ r, s.data = linkBase ++ r ∧ r ≠ [] ∧
        (r.all isTokenChar = true ∨ ∃ t, r = t ++ ['\n'] ∧ t ≠ [] ∧ t.all isTokenChar = true) := by
  unfold pyLinkRegexMatch
  cases h : stripBase linkBase s.data with
  | none =>
    simp only [Bool.false_eq_true, false_iff]
    rintro ⟨r, hr, _, _⟩
    rw [← stripBase_eq_some] at hr
    rw [h] at hr
    cases hr
  | some r =>
    rw [stripBase_eq_some] at h
    cases r with
    | nil =>
      simp only [Bool.false_eq_true, false_iff]
      rintro ⟨r2, hr2, hne, _⟩
      rw [h] at hr2
      have := List.append_cancel_left hr2
      exact hne this.symm
    | cons c cs =>
      simp only [Bool.and_eq_true, tokenTail_iff]
      constructor
      · rintro ⟨hct, hcs | ⟨t, rfl, ht⟩⟩
        · exact ⟨c :: cs, h, List.cons_ne_nil c cs,
            Or.inl (by simp [List.all_cons, hct, hcs])⟩
        · refine ⟨c :: (t ++ ['\n']), h, List.cons_ne_nil _ _, Or.inr ⟨c :: t, rfl, List.cons_ne_nil c t, ?_⟩⟩
          simp [List.all_cons, hct, ht]
      · rintro ⟨r2, hr2, hne, hshape⟩
        rw [h] at hr2
        have hr3 := List.append_cancel_left hr2
        subst hr3
        rcases hshape with hall | ⟨t, heq, htne, ht⟩
        · rw [List.all_cons, Bool.and_eq_true] at hall
          exact ⟨hall.1, Or.inl hall.2⟩
        · cases t with
          | nil => exact absurd rfl htne
          | cons d t2 =>
            rw [List.cons_append] at heq
            injection heq with h1 h2
            subst h1
            rw [List.all_cons, Bool.and_eq_true] at ht
            exact ⟨ht.1, Or.inr ⟨t2, h2, ht.2⟩⟩

theorem linkShapeSpec_iff (s : String) :
    linkShapeSpec s = true ↔
      ∃ r, s.data = linkBase ++ r ∧ r ≠ [] ∧ r.all isTokenChar = true := by
  unfold linkShapeSpec
  cases h : stripBase linkBase s.data with
  | none =>
    simp only [Bool.false_eq_true, false_iff]
    rintro ⟨r, hr, _, _⟩
    rw [← stripBase_eq_some] at hr
    rw [h] at hr
    cases hr
  | some r =>
    rw [stripBase_eq_some] at h
    rw [Bool.and_eq_true]
    constructor
    · rintro ⟨hne, hall⟩
      refine ⟨r, h, ?_, hall⟩
      intro hnil
      subst hnil
      simp at hne
    · rintro ⟨r2, hr2, hne, hall⟩
      rw [h] at hr2
      have hr3 := List.append_cancel_left hr2
      subst hr3
      constructor
      · simpa [List.isEmpty_iff] using hne
      · exact hall

theorem validate_professor_link_eq (link : String) :
    validate_professor_link link = if pyLinkRegexMatch link then some link else none := by
  unfold validate_professor_link
  by_cases h : link = ""
  · subst h
    have hm : pyLinkRegexMatch ("") = false := by decide
    simp [hm]
  · simp [h]

theorem validate_professor_link_some {l r : String} (h : validate_professor_link l = some r) :
    r = l ∧ pyLinkRegexMatch l = true := by
  rw [validate_professor_link_eq] at h
  by_cases hm : pyLinkRegexMatch l = true
  · rw [if_pos hm, Option.some_inj] at h
    exact ⟨h.symm, hm⟩
  · rw [if_neg hm] at h; cases h

theorem create_some_elim {n : Option String} {r : RatingInput} {l : String} {e : Entry}
    (h : create_professor_entry n r l = some e) :
    cleanNameOpt n ≠ "" ∧ e.name = cleanNameOpt n ∧ validate_rating r = some e.rating ∧
      validate_professor_link e.link = some e.link ∧ e.link = l ∧
      validate_professor_data e = true := by
  simp only [create_professor_entry] at h
  split at h
  next h1 => cases h
  next h1 =>
    split at h
    next h2 => cases h
    next q h2 =>
      split at h
      next h3 => cases h
      next vl h3 =>
        split at h
        next h4 =>
          rw [Option.some_inj] at h
          subst h
          obtain ⟨hvl, hm⟩ := validate_professor_link_some h3
          subst hvl
          exact ⟨h1, rfl, h2, h3, rfl, h4⟩
        next h4 => cases h

theorem create_some_intro (n : Option String) (r : RatingInput) (l : String) (q : ℚ)
    (h1 : cleanNameOpt n ≠ "") (h2 : validate_rating r = some q)
    (h3 : validate_professor_link l = some l)
    (h4 : validate_professor_data ⟨cleanNameOpt n, q, l⟩ = true) :
    create_professor_entry n r l = some ⟨cleanNameOpt n, q, l⟩ := by
  simp only [create_professor_entry, h2, h3]
  rw [if_neg h1]
  simp [h4]

theorem validate_professor_data_name_ne {e : Entry} (h : validate_professor_data e = true) :
    e.name ≠ "" := by
  unfold validate_professor_data nameOk at h
  simp only [Bool.and_eq_true] at h
  intro he
  have h2 := h.1.1.1
  rw [he] at h2
  simp at h2

/-- C1: counterexample to the claim as stated.  `validate_rating` applies
Python `float()` to the whole ratingText — there is no first-number
extraction — so the claim's own scenario input `"3.67 (120 reviews)"` is
rejected (`float` raises `ValueError`), not parsed to `3.67`. -/
theorem c1_rating_claim_counterexample :
    validate_rating (.str ("3.67 (120 reviews)")) = none := by decide

unseal Rat.mul Rat.inv Rat.add Rat.sub in
/-- C1 (amended): the Validator converts the entire ratingText with Python
`float()`: a string is accepted exactly when it is a float literal whose
value lies in `[0, 4]`, and the value is then rounded to 2 decimals; a
purely numeric text such as `"3.67"` yields `3.67`, but `"3.67 (120
reviews)"` is rejected.  The first-decimal-substring extraction the claim
describes is implemented only by the helper `extract_rating_from_text`
(utils.py), which the Validator never calls. -/
theorem c1_rating_amended :
    (∀ s q, validate_rating (.str s) = some q ↔
        ∃ x, pyFloatParse s = some x ∧ 0 ≤ x ∧ x ≤ 4 ∧ q = round2 x) ∧
    validate_rating (.str ("3.67")) = some ((367 : ℚ) / 100) ∧
    validate_rating (.str ("5.0")) = none ∧
    validate_rating (.str ("3.67 (120 reviews)")) = none ∧
    extract_rating_from_text ("3.67 (120 reviews)") = some ((367 : ℚ) / 100) :=
  ⟨validate_rating_str_iff, by decide, by decide, by decide, by decide⟩

unseal Rat.mul Rat.inv Rat.add Rat.sub in
/-- Witness for C1: the characterization applied at the concrete literal
`"3.67"`. -/
theorem c1_rating_amended_witness :
    validate_rating (.str ("3.67")) = some (round2 ((367 : ℚ) / 100)) :=
  (c1_rating_amended.1 ("3.67") (round2 ((367 : ℚ) / 100))).mpr
    ⟨(367 : ℚ) / 100, by decide, by decide, by decide, rfl⟩

/-- C7 (amended): the Validator is a fixed point on ValidatedRecords whose
name re-cleaning leaves unchanged: if `create_professor_entry` produced `e`
and `clean_professor_name e.name = e.name`, then re-validating `e`'s
fields yields `e` again.  Without that proviso the claim fails: stripping
disallowed characters happens after whitespace collapsing and can leave
consecutive (or boundary) spaces in the cleaned name, which a second pass
collapses — see the counterexample. -/
theorem c7_validator_fixed_point :
    ∀ (n : Option String) (r : RatingInput) (l : String) (e : Entry),
      create_professor_entry n r l = some e →
      clean_professor_name e.name = e.name →
      create_professor_entry (some e.name) (.num e.rating) e.link = some e := by
  intro n r l e h hfix
  obtain ⟨h1, hname, hrat, hlink, hel, hdata⟩ := create_some_elim h
  obtain ⟨hq0, hq4, hqr⟩ := validate_rating_some hrat
  have hne : e.name ≠ "" := validate_professor_data_name_ne hdata
  have hclean : cleanNameOpt (some e.name) = e.name := hfix
  have hres := create_some_intro (some e.name) (.num e.rating) e.link e.rating
    (by rw [hclean]; exact hne)
    (validate_rating_num_fixed hq0 hq4 hqr)
    hlink
    (by rw [hclean]; exact hdata)
  rw [hclean] at hres
  exact hres

unseal Rat.mul Rat.inv Rat.add Rat.sub in
/-- C7: counterexample to the claim as stated.  The raw name `"Jo @ hn"`
validates to the record with name `"Jo  hn"` (the stripped `@` leaves two
adjacent spaces, which the final schema pattern permits); re-validating
that record's fields collapses the double space and returns a different
record, so validation is not idempotent on it. -/
theorem c7_claim_counterexample :
    create_professor_entry (some ("Jo @ hn")) (.str ("3.5")) ("https://polyratings.dev/professor/abc123")
      = some ⟨("Jo  hn"), (7 : ℚ) / 2, ("https://polyratings.dev/professor/abc123")⟩ ∧
    create_professor_entry (some ("Jo  hn")) (.num ((7 : ℚ) / 2)) ("https://polyratings.dev/professor/abc123")
      = some ⟨("Jo hn"), (7 : ℚ) / 2, ("https://polyratings.dev/professor/abc123")⟩ ∧
    (⟨("Jo hn"), (7 : ℚ) / 2, ("https://polyratings.dev/professor/abc123")⟩ : Entry)
      ≠ ⟨("Jo  hn"), (7 : ℚ) / 2, ("https://polyratings.dev/professor/abc123")⟩ :=
  ⟨by decide, by decide, by decide⟩

unseal Rat.mul Rat.inv Rat.add Rat.sub in
/-- Witness for C7: the fixed-point theorem applied to a concrete validated
record whose name is already clean. -/
theorem c7_validator_fixed_point_witness :
    create_professor_entry (some ("John Doe")) (.num ((7 : ℚ) / 2)) ("https://polyratings.dev/professor/abc123")
      = some ⟨("John Doe"), (7 : ℚ) / 2, ("https://polyratings.dev/professor/abc123")⟩ :=
  c7_validator_fixed_point (some ("John Doe")) (.str ("3.5")) ("https://polyratings.dev/professor/abc123")
    ⟨("John Doe"), (7 : ℚ) / 2, ("https://polyratings.dev/professor/abc123")⟩
    (by decide) (by decide)

/-- C8 (confirmed): the cleaning step equals the spec's composition —
collapse whitespace runs to a single space, trim the ends, strip every
character outside {letters, space, comma, period, apostrophe, hyphen} —
and `create_professor_entry` rejects at the name step exactly when the
cleaned name is empty: an empty cleaned name forces rejection, a non-empty
one lets the candidate proceed to the rating/link/schema checks; the
claim's scenario `"  John   Doe  "` cleans to `"John Doe"`. -/
theorem c8_clean_name :
    (∀ s, clean_professor_name s = cleanNameSpec s) ∧
    (∀ (n : Option String) (r : RatingInput) (l : String),
        cleanNameOpt n = "" → create_professor_entry n r l = none) ∧
    (∀ (n : Option String) (r : RatingInput) (l : String) (q : ℚ),
        cleanNameOpt n ≠ "" → validate_rating r = some q →
        validate_professor_link l = some l →
        create_professor_entry n r l =
          (if validate_professor_data ⟨cleanNameOpt n, q, l⟩ then
            some ⟨cleanNameOpt n, q, l⟩ else none)) ∧
    clean_professor_name ("  John   Doe  ") = ("John Doe") := by
  refine ⟨clean_eq_cleanNameSpec, ?_, ?_, by decide⟩
  · intro n r l h1
    simp [create_professor_entry, h1]
  · intro n r l q h1 h2 h3
    simp only [create_professor_entry, h2, h3]
    rw [if_neg h1]

unseal Rat.mul Rat.inv Rat.add Rat.sub in
/-- Witness for C8: the rejection rule applied at a missing name (cleans to
the empty string, rejected) and at the concrete name `"John"` with a valid
rating and link (proceeds to the schema check). -/
theorem c8_clean_name_witness :
    create_professor_entry none (.str ("3.5")) ("x") = none ∧
    create_professor_entry (some ("John")) (.str ("3.5"))
        ("https://polyratings.dev/professor/abc123") =
      (if validate_professor_data
          ⟨cleanNameOpt (some ("John")), (7 : ℚ) / 2, ("https://polyratings.dev/professor/abc123")⟩ then
        some ⟨cleanNameOpt (some ("John")), (7 : ℚ) / 2, ("https://polyratings.dev/professor/abc123")⟩
      else none) :=
  ⟨c8_clean_name.2.1 none (.str ("3.5")) ("x") rfl,
   c8_clean_name.2.2.1 (some ("John")) (.str ("3.5"))
     ("https://polyratings.dev/professor/abc123") ((7 : ℚ) / 2)
     (by decide) (by decide) (by decide)⟩

/-- C9: counterexample to the claim as stated.  Python's `$` also matches
just before a newline that ends the string, so `re.match` accepts
`"https://polyratings.dev/professor/abc\n"`, which does not exactly match
the `<base>/professor/<lowercase-hex-or-hyphen>` shape (its token part
contains a newline): the "only if" direction of the claim fails. -/
theorem c9_link_claim_counterexample :
    validate_professor_link ("https://polyratings.dev/professor/abc\n")
      = some ("https://polyratings.dev/professor/abc\n") ∧
    linkShapeSpec ("https://polyratings.dev/professor/abc\n") = false :=
  ⟨by decide, by decide⟩

/-- C9 (amended): the Validator accepts a link iff it exactly matches
`https://polyratings.dev/professor/<token>` with `<token>` a non-empty
string of lowercase hex digits and hyphens, OR is such a string followed by
one trailing newline (an artifact of Python's `$` semantics); the claim's
scenario `<base>/professor/invalid` is rejected, and a well-formed UUID
link is accepted. -/
theorem c9_link_amended :
    (∀ s : String, validate_professor_link s = some s ↔
        (linkShapeSpec s = true ∨
          ∃ t, s.data = t ++ ['\n'] ∧ linkShapeSpec (String.mk t) = true)) ∧
    validate_professor_link ("https://polyratings.dev/professor/invalid") = none ∧
    validate_professor_link ("https://polyratings.dev/professor/12345678-1234-1234-1234-123456789abc")
      = some ("https://polyratings.dev/professor/12345678-1234-1234-1234-123456789abc") := by
  refine ⟨?_, by decide, by decide⟩
  intro s
  rw [validate_professor_link_eq]
  constructor
  · intro h
    by_cases hm : pyLinkRegexMatch s = true
    case neg => rw [if_neg hm] at h; cases h
    rw [pyLinkRegexMatch_iff] at hm
    obtain ⟨r, hr, hne, hshape⟩ := hm
    rcases hshape with hall | ⟨t, rfl, htne, ht⟩
    · left
      rw [linkShapeSpec_iff]
      exact ⟨r, hr, hne, hall⟩
    · right
      refine ⟨linkBase ++ t, ?_, ?_⟩
      · rw [hr, List.append_assoc]
      · rw [linkShapeSpec_iff]
        exact ⟨t, rfl, htne, ht⟩
  · intro h
    have hm : pyLinkRegexMatch s = true := by
      rw [pyLinkRegexMatch_iff]
      rcases h with hs | ⟨t, heq, ht⟩
      · rw [linkShapeSpec_iff] at hs
        obtain ⟨r, hr, hne, hall⟩ := hs
        exact ⟨r, hr, hne, Or.inl hall⟩
      · rw [linkShapeSpec_iff] at ht
        obtain ⟨r, hr, hne, hall⟩ := ht
        have hr2 : t = linkBase ++ r := hr
        refine ⟨r ++ ['\n'], ?_, by simp, Or.inr ⟨r, rfl, hne, hall⟩⟩
        rw [heq, hr2, List.append_assoc]
    rw [if_pos hm]

/-- Witness for C9: the characterization applied at a concrete well-shaped
link. -/
theorem c9_link_amended_witness :
    validate_professor_link ("https://polyratings.dev/professor/abc")
      = some ("https://polyratings.dev/professor/abc") :=
  (c9_link_amended.1 ("https://polyratings.dev/professor/abc")).mpr (Or.inl (by decide))

theorem mem_insertCard_of_mem {l : List RawCard} {a : RawCard} (c : RawCard) (h : a ∈ l) :
    a ∈ insertCard l c := by
  unfold insertCard
  split
  · exact h
  · exact List.mem_append_left _ h

theorem mem_insertCard_self (l : List RawCard) (c : RawCard) : c ∈ insertCard l c := by
  unfold insertCard
  split
  next h => exact h
  next h => exact List.mem_append_right _ (List.mem_singleton.mpr rfl)

theorem mem_insertAll_left {l : List RawCard} {a : RawCard} (cs : List RawCard) (h : a ∈ l) :
    a ∈ insertAll l cs := by
  induction cs generalizing l with
  | nil => exact h
  | cons c cs ih =>
    simp only [insertAll, List.foldl_cons] at *
    exact ih (mem_insertCard_of_mem c h)

theorem mem_insertAll_right {cs : List RawCard} {a : RawCard} (l : List RawCard) (h : a ∈ cs) :
    a ∈ insertAll l cs := by
  induction cs generalizing l with
  | nil => cases h
  | cons c cs ih =>
    simp only [insertAll, List.foldl_cons] at *
    rcases List.mem_cons.mp h with rfl | h2
    · exact mem_insertAll_left cs (mem_insertCard_self l a)
    · exact ih _ h2

theorem insertCard_nodup {l : List RawCard} (c : RawCard) (h : l.Nodup) :
    (insertCard l c).Nodup := by
  unfold insertCard
  split
  next hc => exact h
  next hc => simp [List.nodup_append, h, hc]

theorem insertAll_nodup {l : List RawCard} (cs : List RawCard) (h : l.Nodup) :
    (insertAll l cs).Nodup := by
  induction cs generalizing l with
  | nil => exact h
  | cons c cs ih =>
    simp only [insertAll, List.foldl_cons] at *
    exact ih (insertCard_nodup c h)

theorem collectLoop_acc_mem (extract : Nat → List RawCard) (height : Nat → Nat)
    (inc maxNoNew : Nat) :
    ∀ (fuel i : Nat) (st : CollectState) (a : RawCard), a ∈ st.acc →
      a ∈ (collectLoop extract height inc maxNoNew fuel i st).acc := by
  intro fuel
  induction fuel with
  | zero => intro i st a h; exact h
  | succ fuel ih =>
    intro i st a h
    simp only [collectLoop]
    split
    next hpos =>
      split <;> split
      · exact mem_insertAll_left _ h
      · exact ih _ _ a (mem_insertAll_left _ h)
      · exact mem_insertAll_left _ h
      · exact ih _ _ a (mem_insertAll_left _ h)
    next hpos => exact h

theorem collectLoop_acc_nodup (extract : Nat → List RawCard) (height : Nat → Nat)
    (inc maxNoNew : Nat) :
    ∀ (fuel i : Nat) (st : CollectState), st.acc.Nodup →
      (collectLoop extract height inc maxNoNew fuel i st).acc.Nodup := by
  intro fuel
  induction fuel with
  | zero => intro i st h; exact h
  | succ fuel ih =>
    intro i st h
    simp only [collectLoop]
    split
    next hpos =>
      split <;> split
      · exact insertAll_nodup _ h
      · exact ih _ _ (insertAll_nodup _ h)
      · exact insertAll_nodup _ h
      · exact ih _ _ (insertAll_nodup _ h)
    next hpos => exact h

theorem collectSteps_sound (extract : Nat → List RawCard) (height : Nat → Nat)
    (inc maxNoNew : Nat) :
    ∀ (fuel i : Nat) (st : CollectState) (j : Nat),
      j ∈ collectSteps extract height inc maxNoNew fuel i st →
      ∀ p ∈ extract j, p ∈ (collectLoop extract height inc maxNoNew fuel i st).acc := by
  intro fuel
  induction fuel with
  | zero => intro i st j hj; cases hj
  | succ fuel ih =>
    intro i st j hj p hp
    simp only [collectSteps] at hj
    simp only [collectLoop]
    by_cases hpos : st.pos < st.height
    · rw [if_pos hpos] at hj
      rw [if_pos hpos]
      by_cases hbrk :
          maxNoNew ≤ (if (insertAll st.acc (extract i)).length = st.lastCount then
            (st.noNew + 1, st.lastCount) else (0, (insertAll st.acc (extract i)).length)).1
      · rw [if_pos hbrk] at hj
        rw [if_pos hbrk]
        have hji : j = i := by simpa using hj
        subst hji
        exact mem_insertAll_right _ hp
      · rw [if_neg hbrk] at hj
        rw [if_neg hbrk]
        rcases List.mem_cons.mp hj with rfl | hj2
        · exact collectLoop_acc_mem extract height inc maxNoNew _ _ _ p
            (mem_insertAll_right _ hp)
        · exact ih _ _ j hj2 p hp
    · rw [if_neg hpos] at hj
      cases hj

/-- C2 (amended): within a run the Collector's accumulator is a set keyed
by the whole `(name, ratingText, identityLink)` tuple: it never holds two
equal tuples (the returned list is duplicate-free), but it may hold
several tuples sharing one identityLink when the name or rating text
differ — the counterexample shows two entries for one identity.  One entry
per identityLink is only established afterwards, by the Driver's
`deduplicate_professors` pass. -/
theorem c2_collector_amended :
    ∀ (extract : Nat → List RawCard) (height : Nat → Nat) (finalExtract : List RawCard)
      (inc maxNoNew h0 fuel : Nat),
      (fine_grained_scroll_and_collect extract height finalExtract inc maxNoNew h0 fuel).Nodup := by
  intro extract height finalExtract inc maxNoNew h0 fuel
  unfold fine_grained_scroll_and_collect
  exact insertAll_nodup _
    (collectLoop_acc_nodup extract height inc maxNoNew fuel 0 ⟨[], 0, 0, 0, h0⟩ List.nodup_nil)

/-- C2: counterexample to the claim as stated.  The same identity link is
extracted at two scroll steps with different name casing; the Python `set`
of tuples keeps both, so the final accumulator has TWO entries for that
identityLink, not at most one. -/
theorem c2_claim_counterexample :
    (fine_grained_scroll_and_collect
        (fun i => if i = 0 then [⟨some ("JOHN"), some ("3.5"), ("https://polyratings.dev/professor/abc")⟩]
          else [⟨some ("John"), some ("3.5"), ("https://polyratings.dev/professor/abc")⟩])
        (fun _ => 200) [] 100 50 200 10).countP
      (fun c => c.link == ("https://polyratings.dev/professor/abc")) = 2 := by decide

/-- C6 (confirmed): nothing observed is ever dropped — every tuple returned
by the Extractor at any loop iteration the run performed, and every tuple
of the final bottom-of-page extraction, is in the sequence the Collector
returns (the accumulator only grows). -/
theorem c6_collector_complete :
    ∀ (extract : Nat → List RawCard) (height : Nat → Nat) (finalExtract : List RawCard)
      (inc maxNoNew h0 fuel : Nat),
      (∀ j, j ∈ collectAllSteps extract height inc maxNoNew h0 fuel →
        ∀ p, p ∈ extract j →
          p ∈ fine_grained_scroll_and_collect extract height finalExtract inc maxNoNew h0 fuel) ∧
      (∀ p, p ∈ finalExtract →
        p ∈ fine_grained_scroll_and_collect extract height finalExtract inc maxNoNew h0 fuel) := by
  intro extract height finalExtract inc maxNoNew h0 fuel
  unfold fine_grained_scroll_and_collect collectAllSteps
  constructor
  · intro j hj p hp
    exact mem_insertAll_left _ (collectSteps_sound extract height inc maxNoNew fuel 0 _ j hj p hp)
  · intro p hp
    exact mem_insertAll_right _ hp

/-- Witness for C6: a concrete one-card run; the card extracted at step 0
is in the Collector's result. -/
theorem c6_collector_complete_witness :
    (⟨some ("A"), some ("3.5"), ("L")⟩ : RawCard) ∈
      fine_grained_scroll_and_collect (fun _ => [⟨some ("A"), some ("3.5"), ("L")⟩])
        (fun _ => 100) [] 100 50 100 5 :=
  (c6_collector_complete (fun _ => [⟨some ("A"), some ("3.5"), ("L")⟩])
      (fun _ => 100) [] 100 50 100 5).1 0 (by decide) _ (by decide)

theorem dedupGo_sublist (seen : List String) (l : List RawCard) :
    List.Sublist (dedupGo seen l) l := by
  induction l generalizing seen with
  | nil => exact List.Sublist.refl []
  | cons c cs ih =>
    simp only [dedupGo]
    split
    · exact List.Sublist.cons c (ih seen)
    · exact List.Sublist.cons₂ c (ih (c.link :: seen))

theorem dedupGo_link_not_seen (seen : List String) (l : List RawCard) :
    ∀ y ∈ dedupGo seen l, y.link ∉ seen := by
  induction l generalizing seen with
  | nil => intro y hy; cases hy
  | cons c cs ih =>
    simp only [dedupGo]
    split
    next hc => exact ih seen
    next hc =>
      intro y hy
      rcases List.mem_cons.mp hy with rfl | hy2
      · exact hc
      · have h3 := ih (c.link :: seen) y hy2
        intro hcontra
        exact h3 (List.mem_cons_of_mem _ hcontra)

theorem dedupGo_links_nodup (seen : List String) (l : List RawCard) :
    ((dedupGo seen l).map RawCard.link).Nodup := by
  induction l generalizing seen with
  | nil => simp [dedupGo]
  | cons c cs ih =>
    simp only [dedupGo]
    split
    · exact ih seen
    next hc =>
      rw [List.map_cons, List.nodup_cons]
      constructor
      · intro hmem
        rw [List.mem_map] at hmem
        obtain ⟨y, hy, hyl⟩ := hmem
        have h3 := dedupGo_link_not_seen (c.link :: seen) cs y hy
        exact h3 (hyl ▸ List.mem_cons_self _ _)
      · exact ih (c.link :: seen)

theorem find_link_cons_pos (k : String) (c : RawCard) (l : List RawCard)
    (h : (c.link == k) = true) :
    List.find? (fun y => y.link == k) (c :: l) = some c := by
  simp [List.find?, h]

theorem find_link_cons_neg (k : String) (c : RawCard) (l : List RawCard)
    (h : (c.link == k) = false) :
    List.find? (fun y => y.link == k) (c :: l) = List.find? (fun y => y.link == k) l := by
  simp [List.find?, h]

theorem dedupGo_find (seen : List String) (l : List RawCard) (k : String) (hk : k ∉ seen) :
    (dedupGo seen l).find? (fun y => y.link == k) = l.find? (fun y => y.link == k) := by
  induction l generalizing seen with
  | nil => rfl
  | cons c cs ih =>
    simp only [dedupGo]
    split
    next hc =>
      have hne : (c.link == k) = false := by
        rw [beq_eq_false_iff_ne]
        intro h
        rw [h] at hc
        exact hk hc
      rw [find_link_cons_neg k c cs hne]
      exact ih seen hk
    next hc =>
      by_cases hck : c.link = k
      · have hpos : (c.link == k) = true := by rw [beq_iff_eq]; exact hck
        rw [find_link_cons_pos k c _ hpos, find_link_cons_pos k c cs hpos]
      · have hneg : (c.link == k) = false := by rw [beq_eq_false_iff_ne]; exact hck
        rw [find_link_cons_neg k c _ hneg, find_link_cons_neg k c cs hneg]
        apply ih
        intro hmem
        rcases List.mem_cons.mp hmem with h1 | h2
        · exact hck h1.symm
        · exact hk h2

theorem dedupGo_covers (seen : List String) (l : List RawCard) :
    ∀ x ∈ l, x.link ∈ seen ∨ ∃ y ∈ dedupGo seen l, y.link = x.link := by
  induction l generalizing seen with
  | nil => intro x hx; cases hx
  | cons c cs ih =>
    intro x hx
    simp only [dedupGo]
    split
    next hc =>
      rcases List.mem_cons.mp hx with rfl | hx2
      · exact Or.inl hc
      · exact ih seen x hx2
    next hc =>
      rcases List.mem_cons.mp hx with rfl | hx2
      · exact Or.inr ⟨x, List.mem_cons_self _ _, rfl⟩
      · rcases ih (c.link :: seen) x hx2 with h1 | ⟨y, hy, hyl⟩
        · rcases List.mem_cons.mp h1 with h2 | h3
          · exact Or.inr ⟨c, List.mem_cons_self _ _, h2.symm⟩
          · exact Or.inl h3
        · exact Or.inr ⟨y, List.mem_cons_of_mem _ hy, hyl⟩

/-- C10 (confirmed): `deduplicate_professors` returns a subsequence of its
input whose links are pairwise distinct, in which every input link still
occurs, and where the tuple kept for each link is the first occurrence in
input order (its `find?` by link agrees with the input's). -/
theorem c10_dedup_first_seen :
    ∀ (l : List RawCard),
      List.Sublist (deduplicate_professors l) l ∧
      ((deduplicate_professors l).map RawCard.link).Nodup ∧
      (∀ x, x ∈ l → ∃ y, y ∈ deduplicate_professors l ∧ y.link = x.link) ∧
      (∀ k, (deduplicate_professors l).find? (fun y => y.link == k)
            = l.find? (fun y => y.link == k)) := by
  intro l
  refine ⟨dedupGo_sublist [] l, dedupGo_links_nodup [] l, ?_, ?_⟩
  · intro x hx
    rcases dedupGo_covers [] l x hx with h | ⟨y, hy, hyl⟩
    · cases h
    · exact ⟨y, hy, hyl⟩
  · intro k
    exact dedupGo_find [] l k (by simp)

/-- Witness for C10: on a two-card input sharing one link, some kept tuple
carries that link. -/
theorem c10_dedup_first_seen_witness :
    ∃ y, y ∈ deduplicate_professors
        [⟨some ("A"), none, ("x")⟩, ⟨some ("B"), none, ("x")⟩] ∧
      y.link = (⟨some ("A"), none, ("x")⟩ : RawCard).link :=
  (c10_dedup_first_seen [⟨some ("A"), none, ("x")⟩, ⟨some ("B"), none, ("x")⟩]).2.2.1
    ⟨some ("A"), none, ("x")⟩ (by decide)

theorem pipeline_links_sublist (l : List RawCard) :
    List.Sublist
      ((l.filterMap (fun c => create_professor_entry c.name (ratingInputOf c.ratingText) c.link)).map Entry.link)
      (l.map RawCard.link) := by
  induction l with
  | nil => simp
  | cons c cs ih =>
    rw [List.filterMap_cons, List.map_cons]
    cases h : create_professor_entry c.name (ratingInputOf c.ratingText) c.link with
    | none => exact List.Sublist.cons _ ih
    | some e =>
      rw [List.map_cons]
      have hel : e.link = c.link := (create_some_elim h).2.2.2.2.1
      rw [hel]
      exact List.Sublist.cons₂ _ ih

/-- C3 (confirmed): in every run, the sequence the Driver hands to the
Store — `pipelineEntries`, the deduplicated-then-validated entries, which
is exactly what `save_professors_json` serializes on success — has
pairwise-distinct `link` values: deduplication makes the tuple links
distinct, and validation keeps each tuple's link unchanged while only
dropping tuples. -/
theorem c3_store_unique_links :
    ∀ (raw : List RawCard) (artifact : Option String) (w : WriteOutcome),
      ((pipelineEntries raw).map Entry.link).Nodup ∧
      ((save_professors_json (pipelineEntries raw) artifact w).1 = true →
        (save_professors_json (pipelineEntries raw) artifact w).2
          = some (dumps (pipelineEntries raw))) := by
  intro raw artifact w
  constructor
  · have h1 := pipeline_links_sublist (deduplicate_professors raw)
    have h2 := dedupGo_links_nodup [] raw
    exact h1.nodup h2
  · intro hs
    cases hv : validate_professors_list (pipelineEntries raw) with
    | false =>
      unfold save_professors_json at hs
      rw [hv] at hs
      simp at hs
    | true =>
      unfold save_professors_json at hs ⊢
      rw [hv] at hs ⊢
      cases w with
      | ok => rfl
      | openFail => simp at hs
      | failAfter n => simp at hs

unseal Rat.mul Rat.inv Rat.add Rat.sub in
/-- Witness for C3: a concrete one-card run whose save succeeds and writes
exactly the serialized pipeline output. -/
theorem c3_store_unique_links_witness :
    (save_professors_json
        (pipelineEntries [⟨some ("John"), some ("3.5"), ("https://polyratings.dev/professor/abc123")⟩])
        none .ok).2
      = some (dumps (pipelineEntries
          [⟨some ("John"), some ("3.5"), ("https://polyratings.dev/professor/abc123")⟩])) :=
  (c3_store_unique_links [⟨some ("John"), some ("3.5"), ("https://polyratings.dev/professor/abc123")⟩]
    none .ok).2 (by decide)

/-- C4 (amended): `save_professors_json` validates the whole sequence
against the per-record schema plus the non-empty constraint; on validation
failure (in particular on the empty sequence) it reports failure before
any file is opened, leaving the artifact untouched, and a failure of
`open` itself also leaves it untouched; on success the artifact is fully
overwritten with the serialization.  However, an I/O failure DURING
writing can leave a truncated artifact — `open(path, "w")` truncates
before `json.dump` starts and there is no atomic replacement — so the
claim's "any I/O failure leaves the existing artifact unchanged" does not
hold (see the counterexample). -/
theorem c4_save_amended :
    ∀ (ps : List Entry) (artifact : Option String) (w : WriteOutcome),
      (validate_professors_list ps = false →
        save_professors_json ps artifact w = (false, artifact)) ∧
      save_professors_json [] artifact w = (false, artifact) ∧
      (validate_professors_list ps = true →
        save_professors_json ps artifact .ok = (true, some (dumps ps)) ∧
        save_professors_json ps artifact .openFail = (false, artifact) ∧
        ∀ n, save_professors_json ps artifact (.failAfter n)
          = (false, some ((dumps ps).take n))) := by
  intro ps artifact w
  refine ⟨?_, ?_, ?_⟩
  · intro hv
    simp [save_professors_json, hv]
  · simp [save_professors_json, validate_professors_list]
  · intro hv
    refine ⟨by simp [save_professors_json, hv], by simp [save_professors_json, hv], ?_⟩
    intro n
    simp [save_professors_json, hv]

unseal Rat.mul Rat.inv Rat.add Rat.sub in
/-- C4: counterexample to the claim as stated.  A valid one-record save
that fails during writing (after `open` truncated the file) leaves an
empty artifact, not the previous contents `"old artifact"`. -/
theorem c4_save_claim_counterexample :
    (save_professors_json
        [⟨("Smith, John"), (7 : ℚ) / 2, ("https://polyratings.dev/professor/abc123")⟩]
        (some ("old artifact")) (.failAfter 0)).1 = false ∧
    (save_professors_json
        [⟨("Smith, John"), (7 : ℚ) / 2, ("https://polyratings.dev/professor/abc123")⟩]
        (some ("old artifact")) (.failAfter 0)).2 = some ("") ∧
    some ("") ≠ some ("old artifact") :=
  ⟨by decide, by decide, by decide⟩

unseal Rat.mul Rat.inv Rat.add Rat.sub in
/-- Witness for C4: the amended save contract at concrete inputs — the
empty sequence is refused with the artifact kept, and an open failure on a
valid sequence also keeps it. -/
theorem c4_save_amended_witness :
    save_professors_json [] (some ("keep")) .ok = (false, some ("keep")) ∧
    save_professors_json
        [⟨("Smith, John"), (7 : ℚ) / 2, ("https://polyratings.dev/professor/abc123")⟩]
        (some ("keep")) .openFail
      = (false, some ("keep")) :=
  ⟨(c4_save_amended [] (some ("keep")) .ok).2.1,
   ((c4_save_amended
       [⟨("Smith, John"), (7 : ℚ) / 2, ("https://polyratings.dev/professor/abc123")⟩]
       (some ("keep")) .openFail).2.2 (by decide)).2.1⟩

theorem decodeEntry_encodeEntry (e : Entry) : decodeEntry (encodeEntry e) = some e := rfl

theorem decodeEntries_encodeEntries (l : List Entry) :
    decodeEntries (encodeEntries l) = some l := by
  induction l with
  | nil => rfl
  | cons e es ih =>
    have ih2 : (es.map encodeEntry).mapM decodeEntry = some es := ih
    show ((e :: es).map encodeEntry).mapM decodeEntry = some (e :: es)
    rw [List.map_cons, List.mapM_cons, decodeEntry_encodeEntry, ih2]
    rfl

theorem validProfJson_encodeEntry (e : Entry) :
    validProfJson (encodeEntry e) = validate_professor_data e := by
  simp [validProfJson, encodeEntry, validate_professor_data, List.lookup, List.all_cons,
    Bool.and_assoc]

theorem validateListJson_encodeEntries (l : List Entry)
    (h : validate_professors_list l = true) :
    validateListJson (encodeEntries l) = true := by
  unfold validate_professors_list at h
  rw [Bool.and_eq_true] at h
  unfold validateListJson encodeEntries
  rw [Bool.and_eq_true]
  constructor
  · cases l with
    | nil => simp at h
    | cons e es => simp
  · rw [List.all_eq_true]
    intro x hx
    rw [List.mem_map] at hx
    obtain ⟨y, hy, rfl⟩ := hx
    rw [validProfJson_encodeEntry]
    exact List.all_eq_true.mp h.2 y hy

/-- C5 (confirmed): saving a schema-valid non-empty record sequence and
loading the artifact back succeeds and returns exactly that sequence (the
artifact is modelled at the parsed-JSON-value level, where Python's
`json.load` of a `json.dump` output is an equal value). -/
theorem c5_roundtrip :
    ∀ (R : List Entry) (artifact : Option Json),
      validate_professors_list R = true →
      (saveValue R artifact).1 = true ∧
      load_professors_json (saveValue R artifact).2 = some R := by
  intro R artifact hv
  constructor
  · simp [saveValue, hv]
  · have h2 : (saveValue R artifact).2 = some (encodeEntries R) := by simp [saveValue, hv]
    rw [h2]
    simp only [load_professors_json]
    rw [validateListJson_encodeEntries R hv]
    simp [decodeEntries_encodeEntries]

unseal Rat.mul Rat.inv Rat.add Rat.sub in
/-- Witness for C5: the round-trip applied to a concrete valid record. -/
theorem c5_roundtrip_witness :
    load_professors_json (saveValue
        [⟨("Smith, John"), (7 : ℚ) / 2, ("https://polyratings.dev/professor/abc123")⟩] none).2
      = some [⟨("Smith, John"), (7 : ℚ) / 2, ("https://polyratings.dev/professor/abc123")⟩] :=
  (c5_roundtrip [⟨("Smith, John"), (7 : ℚ) / 2, ("https://polyratings.dev/professor/abc123")⟩]
    none (by decide)).2
